import Mathlib

/-!
# Verification of the SecureVault backup decryption pipeline

Shallow embedding of `decrypt_backup.py` (the cryptographic core:
`derive_key` and `decrypt`), together with models of the external
library primitives the script calls (`base64.b64decode`, PBKDF2,
AES-CBC block decryption, UTF-8 text decoding) and of the matching
reference encryption described by the specification.

Bytes are modelled as `Nat` values below 256, byte strings as
`List Nat`; text (passphrases, recovered plaintext) is modelled as
lists of Unicode scalar values.  The AES-256 block permutation and the
HMAC-SHA256 pseudo-random function are opaque library primitives, so
the development is parameterised over them (`Prims`); theorems assume
only the algebraic facts the claims need (the block cipher inverts
itself, preserves block length, and outputs bytes).
-/

namespace SecureVault

/-- Encryption constants from `decrypt_backup.py` (`KEY_LENGTH = 32`). -/
def KEY_LENGTH : Nat := 32

/-- Constant `IV_LENGTH = 16` in `decrypt_backup.py`. -/
def IV_LENGTH : Nat := 16

/-- Constant `SALT_LENGTH = 32` in `decrypt_backup.py`. -/
def SALT_LENGTH : Nat := 32

/-- Constant `ITERATION_COUNT = 100000` in `decrypt_backup.py`. -/
def ITERATION_COUNT : Nat := 100000

/-- The opaque cryptographic primitives supplied by the PyCryptodome
library: the HMAC-SHA256 pseudo-random function (key, message ↦ 32-byte
mac) and the AES-256 block cipher (key, 16-byte block ↦ 16-byte block)
in both directions.  The script's behaviour is a function of these. -/
structure Prims where
  hmac : List Nat → List Nat → List Nat
  aesEnc : List Nat → List Nat → List Nat
  aesDec : List Nat → List Nat → List Nat

/-- Pointwise XOR of two byte strings (truncating to the shorter). -/
def zipXor (a b : List Nat) : List Nat :=
  List.zipWith (fun x y => x ^^^ y) a b

/-- The 4-byte big-endian encoding of a block index (`INT (i)` of RFC 2898). -/
def intBE4 (i : Nat) : List Nat :=
  [i / 16777216 % 256, i / 65536 % 256, i / 256 % 256, i % 256]

/-- Iteration core of PBKDF2's `F`: given `U_j` and the running XOR
accumulator, applies the PRF `n` more times. -/
def pbkdf2Fgo (prf : List Nat → List Nat → List Nat) (pw : List Nat) :
    Nat → List Nat → List Nat → List Nat
  | 0, _, acc => acc
  | n + 1, u, acc =>
    let u' := prf pw u
    pbkdf2Fgo prf pw n u' (zipXor acc u')

/-- Block function `F (P, S, c, i)` of RFC 2898: XOR of the `c` iterated PRF values,
starting from `PRF (P, S ‖ INT (i))`. -/
def pbkdf2F (prf : List Nat → List Nat → List Nat)
    (pw salt : List Nat) (count i : Nat) : List Nat :=
  let u1 := prf pw (salt ++ intBE4 i)
  pbkdf2Fgo prf pw (count - 1) u1 u1

/-- Modelled from the spec: PBKDF2 (RFC 2898) over an abstract PRF with
a 32-byte output (HMAC-SHA256), as implemented by PyCryptodome's
`PBKDF2`; the library body is not part of this repository.  Produces
`⌈dkLen / 32⌉` blocks `T_1 … T_l` and keeps the first `dkLen` bytes. -/
def pbkdf2 (prf : List Nat → List Nat → List Nat)
    (pw salt : List Nat) (dkLen count : Nat) : List Nat :=
  (List.flatten ((List.range ((dkLen + 31) / 32)).map
    (fun j => pbkdf2F prf pw salt count (j + 1)))).take dkLen

/-- UTF-8 encoding of one Unicode scalar value (arithmetic form of the
standard 1–4 byte layout). -/
def utf8EncodeChar (c : Nat) : List Nat :=
  if c < 128 then [c]
  else if c < 2048 then [192 + c / 64, 128 + c % 64]
  else if c < 65536 then [224 + c / 4096, 128 + c / 64 % 64, 128 + c % 64]
  else [240 + c / 262144, 128 + c / 4096 % 64, 128 + c / 64 % 64, 128 + c % 64]

/-- UTF-8 encoding of a list of Unicode scalar values
(Python's `str.encode ('utf-8')`). -/
def utf8Encode (s : List Nat) : List Nat :=
  (s.map utf8EncodeChar).flatten

/-- Byte-at-a-time core of strict UTF-8 decoding.  `utf8Go acc k lo bs`:
when `k = 0` the decoder is at a sequence boundary (`acc`, `lo` unused);
when `k ≥ 1` it is inside a multi-byte sequence with accumulated value
`acc`, `k` continuation bytes still expected, and `lo` the smallest
legal scalar for the sequence (rejecting overlong forms).  On sequence
completion it also rejects surrogates and values above `0x10FFFF`. -/
def utf8Go : Nat → Nat → Nat → List Nat → Option (List Nat)
  | _, 0, _, [] => some []
  | _, _ + 1, _, [] => none
  | _, 0, _, b0 :: t =>
    if b0 < 128 then (utf8Go 0 0 0 t).map (fun s => b0 :: s)
    else if b0 < 194 then none
    else if b0 < 224 then utf8Go (b0 - 192) 1 128 t
    else if b0 < 240 then utf8Go (b0 - 224) 2 2048 t
    else if b0 < 245 then utf8Go (b0 - 240) 3 65536 t
    else none
  | acc, 1, lo, b :: t =>
    if 128 ≤ b ∧ b < 192 then
      if lo ≤ acc * 64 + (b - 128) ∧ acc * 64 + (b - 128) < 1114112 ∧
          ¬ (55296 ≤ acc * 64 + (b - 128) ∧ acc * 64 + (b - 128) ≤ 57343) then
        (utf8Go 0 0 0 t).map (fun s => (acc * 64 + (b - 128)) :: s)
      else none
    else none
  | acc, k + 2, lo, b :: t =>
    if 128 ≤ b ∧ b < 192 then utf8Go (acc * 64 + (b - 128)) (k + 1) lo t
    else none

/-- Strict UTF-8 decoding (Python's `bytes.decode ('utf-8')`): rejects
stray continuation bytes, overlong forms, surrogates and scalar values
above `0x10FFFF`; returns `none` exactly when Python raises
`UnicodeDecodeError`. -/
def utf8Decode (l : List Nat) : Option (List Nat) :=
  utf8Go 0 0 0 l

/-- A valid Unicode scalar value: below `0x110000` and not a surrogate. -/
def ValidScalar (c : Nat) : Prop :=
  c < 1114112 ∧ ¬ (55296 ≤ c ∧ c ≤ 57343)

instance (c : Nat) : Decidable (ValidScalar c) := by
  unfold ValidScalar; infer_instance

/-- Function `derive_key` from `decrypt_backup.py`: PBKDF2 over the UTF-8 bytes
of the password and the salt, with `dkLen = KEY_LENGTH` and
`count = ITERATION_COUNT`, the PRF being HMAC-SHA256. -/
def derive_key (prims : Prims) (password salt : List Nat) : List Nat :=
  pbkdf2 prims.hmac (utf8Encode password) salt KEY_LENGTH ITERATION_COUNT

/-- Value of a standard Base64 alphabet character (6-bit value → char code). -/
def b64encChar (v : Nat) : Nat :=
  if v < 26 then 65 + v
  else if v < 52 then 97 + (v - 26)
  else if v < 62 then 48 + (v - 52)
  else if v = 62 then 43
  else 47

/-- Inverse of the Base64 alphabet: char code → 6-bit value, `none` for
characters outside the alphabet (including the pad character `=`). -/
def b64decChar (c : Nat) : Option Nat :=
  if 65 ≤ c ∧ c ≤ 90 then some (c - 65)
  else if 97 ≤ c ∧ c ≤ 122 then some (26 + (c - 97))
  else if 48 ≤ c ∧ c ≤ 57 then some (52 + (c - 48))
  else if c = 43 then some 62
  else if c = 47 then some 63
  else none

/-- Standard Base64 encoding of a byte string to a list of character
codes, with `=` (code 61) padding. -/
def b64encode : List Nat → List Nat
  | [] => []
  | [a] => [b64encChar (a / 4), b64encChar (a % 4 * 16), 61, 61]
  | [a, b] => [b64encChar (a / 4), b64encChar (a % 4 * 16 + b / 16),
               b64encChar (b % 16 * 4), 61]
  | a :: b :: c :: t =>
    b64encChar (a / 4) :: b64encChar (a % 4 * 16 + b / 16) ::
    b64encChar (b % 16 * 4 + c / 64) :: b64encChar (c % 64) :: b64encode t

/-- Model of `base64.b64decode` (standard alphabet): decodes groups of
four characters, accepting `=` padding only at the very end; `none`
models the `binascii.Error` Python raises on malformed input. -/
def b64decode : List Nat → Option (List Nat)
  | [] => some []
  | c1 :: c2 :: c3 :: c4 :: t =>
    match b64decChar c1, b64decChar c2 with
    | some v1, some v2 =>
      if c3 = 61 then
        if c4 = 61 ∧ t = [] then some [v1 * 4 + v2 / 16] else none
      else
        match b64decChar c3 with
        | some v3 =>
          if c4 = 61 then
            if t = [] then some [v1 * 4 + v2 / 16, v2 % 16 * 16 + v3 / 4]
            else none
          else
            match b64decChar c4 with
            | some v4 =>
              (b64decode t).map (fun r =>
                (v1 * 4 + v2 / 16) :: (v2 % 16 * 16 + v3 / 4) ::
                (v3 % 4 * 64 + v4) :: r)
            | none => none
        | none => none
    | _, _ => none
  | _ => none

/-- Fuel-driven splitting of a byte string into 16-byte blocks (the
last block is shorter when the length is not a multiple of 16). -/
def toBlocksF : Nat → List Nat → List (List Nat)
  | _, [] => []
  | 0, l => [l]
  | f + 1, l => l.take 16 :: toBlocksF f (l.drop 16)

/-- Split a byte string into 16-byte blocks. -/
def toBlocks (l : List Nat) : List (List Nat) :=
  toBlocksF l.length l

/-- Concatenate blocks back into a byte string. -/
def fromBlocks : List (List Nat) → List Nat
  | [] => []
  | b :: bs => b ++ fromBlocks bs

/-- CBC-mode encryption over block lists: `C_i = E_k (P_i ⊕ C_{i-1})`,
with `prev` the IV for the first block. -/
def cbcEncryptBlocks (enc : List Nat → List Nat → List Nat)
    (key : List Nat) : List Nat → List (List Nat) → List (List Nat)
  | _, [] => []
  | prev, b :: bs =>
    let c := enc key (zipXor prev b)
    c :: cbcEncryptBlocks enc key c bs

/-- CBC-mode decryption over block lists: `P_i = D_k (C_i) ⊕ C_{i-1}`. -/
def cbcDecryptBlocks (dec : List Nat → List Nat → List Nat)
    (key : List Nat) : List Nat → List (List Nat) → List (List Nat)
  | _, [] => []
  | prev, c :: cs =>
    zipXor prev (dec key c) :: cbcDecryptBlocks dec key c cs

/-- Modelled from the spec: AES-CBC encryption (the reference
`encrypt` collaborator lives in `BackupEncryption.kt`, which is not
under `src/`); plaintext is assumed already padded to 16-byte blocks. -/
def aes_cbc_encrypt (enc : List Nat → List Nat → List Nat)
    (key iv pt : List Nat) : List Nat :=
  fromBlocks (cbcEncryptBlocks enc key iv (toBlocks pt))

/-- PyCryptodome's `AES.new (key, AES.MODE_CBC, iv).decrypt`: requires
the data length to be a multiple of the 16-byte block size (`none`
models the `ValueError` raised otherwise), then CBC-decrypts. -/
def aes_cbc_decrypt (dec : List Nat → List Nat → List Nat)
    (key iv ct : List Nat) : Option (List Nat) :=
  if ct.length % 16 = 0 then
    some (fromBlocks (cbcDecryptBlocks dec key iv (toBlocks ct)))
  else none

/-- Modelled from the spec: PKCS#7 padding with block size 16, used by
the reference encryption — append `p = 16 - len mod 16` bytes of value
`p` (so `1 ≤ p ≤ 16`). -/
def pkcs7pad (l : List Nat) : List Nat :=
  let p := 16 - l.length % 16
  l ++ List.replicate p p

/-- Slice `combined[0:SALT_LENGTH]` from `decrypt_backup.py`. -/
def containerSalt (combined : List Nat) : List Nat :=
  combined.take SALT_LENGTH

/-- Slice `combined[SALT_LENGTH:SALT_LENGTH + IV_LENGTH]` from `decrypt_backup.py`. -/
def containerIV (combined : List Nat) : List Nat :=
  (combined.drop SALT_LENGTH).take IV_LENGTH

/-- Slice `combined[SALT_LENGTH + IV_LENGTH:]` from `decrypt_backup.py`. -/
def containerCT (combined : List Nat) : List Nat :=
  combined.drop (SALT_LENGTH + IV_LENGTH)

/-- Python's negative-stop slice `l[:-p]` for `0 ≤ p`: with `p = 0` the
stop is `0` so the result is empty; with `p > 0` the stop `len - p`
clamps at `0`, so the result is the first `len - p` elements. -/
def pySliceNeg (l : List Nat) (p : Nat) : List Nat :=
  if p = 0 then [] else l.take (l.length - p)

/-- The distinct failure points of `decrypt`, by Python exception:
`badBase64` = `binascii.Error` from `base64.b64decode` (spec:
`MalformedContainer`); `tooShort` = `ValueError ("Invalid encrypted
data format")` (spec: `MalformedContainer`); `badBlockLength` =
`ValueError` from CBC decryption of non-block-aligned data (spec:
`InvalidCiphertextLength`); `emptyIndex` = `IndexError` from
`decrypted_data[-1]` on an empty buffer; `utf8Failure` =
`UnicodeDecodeError` (spec: `TextDecodingFailure`). -/
inductive DecErr where
  | badBase64
  | tooShort
  | badBlockLength
  | emptyIndex
  | utf8Failure
deriving DecidableEq, Repr

instance (a b : Except DecErr (List Nat)) : Decidable (a = b) :=
  match a, b with
  | .ok x, .ok y =>
    if h : x = y then isTrue (by rw [h]) else isFalse (by simp [h])
  | .error e, .error f =>
    if h : e = f then isTrue (by rw [h]) else isFalse (by simp [h])
  | .ok _, .error _ => isFalse (by simp)
  | .error _, .ok _ => isFalse (by simp)

/-- Function `decrypt (encrypted_data_b64, password)` from `decrypt_backup.py`:
Base64-decode, check the 48-byte minimum, slice salt/IV/ciphertext,
derive the key, AES-CBC-decrypt, truncate by the last byte
(`decrypted_data[:-padding_length]`), and UTF-8-decode the result. -/
def decrypt (prims : Prims) (encrypted_data_b64 password : List Nat) :
    Except DecErr (List Nat) :=
  match b64decode encrypted_data_b64 with
  | none => .error .badBase64
  | some combined =>
    if combined.length < SALT_LENGTH + IV_LENGTH then .error .tooShort
    else
      let salt := containerSalt combined
      let iv := containerIV combined
      let encrypted := containerCT combined
      let key := derive_key prims password salt
      match aes_cbc_decrypt prims.aesDec key iv encrypted with
      | none => .error .badBlockLength
      | some decrypted_data =>
        match decrypted_data.getLast? with
        | none => .error .emptyIndex
        | some padding_length =>
          match utf8Decode (pySliceNeg decrypted_data padding_length) with
          | none => .error .utf8Failure
          | some s => .ok s

/-- Modelled from the spec: the matching reference encryption (the
`BackupEncryption.kt` producer, not under `src/`): PKCS#7-pad the UTF-8
plaintext, AES-256-CBC-encrypt under the PBKDF2-derived key, and
Base64-encode `salt ‖ iv ‖ ciphertext`. -/
def encryptRef (prims : Prims) (plaintext passphrase salt iv : List Nat) :
    List Nat :=
  b64encode (salt ++ iv ++
    aes_cbc_encrypt prims.aesEnc (derive_key prims passphrase salt) iv
      (pkcs7pad (utf8Encode plaintext)))

/-- Toy instantiation of the primitives used by concrete witnesses: a
constant PRF and the identity block cipher (a legitimate block
permutation: self-inverse, length-preserving, byte-preserving). -/
def idPrims : Prims :=
  { hmac := fun _ _ => List.replicate 32 0
    aesEnc := fun _ b => b
    aesDec := fun _ b => b }


/-! ## Byte-string XOR -/

theorem zipXor_length (a b : List Nat) :
    (zipXor a b).length = min a.length b.length := by
  simp [zipXor]

theorem zipXor_cancel (a : List Nat) : ∀ b : List Nat, a.length = b.length →
    zipXor a (zipXor a b) = b := by
  induction a with
  | nil =>
    intro b h
    cases b with
    | nil => rfl
    | cons q qs => simp at h
  | cons p ps ih =>
    intro b h
    cases b with
    | nil => simp at h
    | cons q qs =>
      simp only [zipXor, List.zipWith_cons_cons, Nat.xor_cancel_left]
      have h2 := ih qs (by simpa using h)
      simp only [zipXor] at h2
      rw [h2]

theorem zipXor_lt_256 (a : List Nat) : ∀ b : List Nat,
    (∀ x ∈ a, x < 256) → (∀ x ∈ b, x < 256) →
    ∀ x ∈ zipXor a b, x < 256 := by
  induction a with
  | nil => intro b _ _; simp [zipXor]
  | cons p ps ih =>
    intro b ha hb
    cases b with
    | nil => simp [zipXor]
    | cons q qs =>
      simp only [zipXor, List.zipWith_cons_cons, List.mem_cons]
      rintro x (rfl | hx)
      · have h1 : p < 2 ^ 8 := ha p (by simp)
        have h2 : q < 2 ^ 8 := hb q (by simp)
        simpa using Nat.xor_lt_two_pow h1 h2
      · have := ih qs (fun y hy => ha y (by simp [hy]))
          (fun y hy => hb y (by simp [hy]))
        simp only [zipXor] at this
        exact this x hx

/-! ## Block splitting -/

theorem toBlocksF_nil : ∀ f : Nat, toBlocksF f [] = []
  | 0 => rfl
  | _ + 1 => rfl

theorem toBlocksF_congr : ∀ f g : Nat, ∀ l : List Nat,
    l.length ≤ f → l.length ≤ g → toBlocksF f l = toBlocksF g l
  | f, g, [], _, _ => by rw [toBlocksF_nil, toBlocksF_nil]
  | f + 1, g + 1, x :: t, hf, hg => by
    simp only [toBlocksF]
    have h16 : ((x :: t).drop 16).length ≤ f := by
      simp only [List.length_drop, List.length_cons]
      simp only [List.length_cons] at hf
      omega
    have h16' : ((x :: t).drop 16).length ≤ g := by
      simp only [List.length_drop, List.length_cons]
      simp only [List.length_cons] at hg
      omega
    rw [toBlocksF_congr f g _ h16 h16']
  | 0, _, x :: t, hf, _ => by simp at hf
  | _ + 1, 0, x :: t, _, hg => by simp at hg

theorem toBlocks_nil : toBlocks [] = [] := rfl

theorem toBlocks_cons_eq (l : List Nat) (h : l ≠ []) :
    toBlocks l = l.take 16 :: toBlocks (l.drop 16) := by
  match l with
  | x :: t =>
    show toBlocksF (t.length + 1) (x :: t) = _
    simp only [toBlocksF]
    exact congrArg _ (toBlocksF_congr t.length ((x :: t).drop 16).length _
      (by simp only [List.length_drop, List.length_cons]; omega) (Nat.le_refl _))

theorem toBlocks_append16 (b rest : List Nat) (hb : b.length = 16) :
    toBlocks (b ++ rest) = b :: toBlocks rest := by
  have hne : b ++ rest ≠ [] := by
    intro h
    have := congrArg List.length h
    simp [hb] at this
  rw [toBlocks_cons_eq _ hne, List.take_left' hb, List.drop_left' hb]

theorem toBlocks_length_16 : ∀ l : List Nat, l.length % 16 = 0 →
    ∀ b ∈ toBlocks l, b.length = 16
  | [], _ => by simp [toBlocks_nil]
  | x :: t, h => by
    rw [toBlocks_cons_eq _ (by simp)]
    have h16 : 16 ≤ (x :: t).length := by
      simp only [List.length_cons] at h ⊢
      omega
    intro b hb
    rw [List.mem_cons] at hb
    rcases hb with hb | hb
    · subst hb
      simp only [List.length_take, List.length_cons]
      simp only [List.length_cons] at h16
      omega
    · have hd : ((x :: t).drop 16).length % 16 = 0 := by
        simp only [List.length_drop, List.length_cons]
        simp only [List.length_cons] at h h16
        omega
      exact toBlocks_length_16 _ hd b hb
termination_by l => l.length
decreasing_by simp only [List.length_drop, List.length_cons]; omega

theorem toBlocks_mem (l : List Nat) :
    ∀ b ∈ toBlocks l, ∀ x ∈ b, x ∈ l := by
  cases hl : l with
  | nil => simp [toBlocks_nil]
  | cons y t =>
    subst hl
    rw [toBlocks_cons_eq _ (by simp)]
    intro b hb x hx
    rw [List.mem_cons] at hb
    rcases hb with hb | hb
    · exact List.take_subset _ _ (hb ▸ hx)
    · exact List.drop_subset _ _ (toBlocks_mem _ b hb x hx)
termination_by l.length
decreasing_by simp only [List.length_drop, List.length_cons]; omega

theorem fromBlocks_toBlocks (l : List Nat) : fromBlocks (toBlocks l) = l := by
  cases hl : l with
  | nil => simp [toBlocks_nil, fromBlocks]
  | cons y t =>
    subst hl
    rw [toBlocks_cons_eq _ (by simp)]
    simp only [fromBlocks]
    rw [fromBlocks_toBlocks ((y :: t).drop 16)]
    exact List.take_append_drop 16 (y :: t)
termination_by l.length
decreasing_by simp only [List.length_drop, List.length_cons]; omega

theorem toBlocks_fromBlocks (bs : List (List Nat))
    (h : ∀ b ∈ bs, b.length = 16) : toBlocks (fromBlocks bs) = bs := by
  induction bs with
  | nil => simp [fromBlocks, toBlocks_nil]
  | cons b rest ih =>
    simp only [fromBlocks]
    rw [toBlocks_append16 _ _ (h b (by simp))]
    rw [ih (fun c hc => h c (by simp [hc]))]

theorem fromBlocks_length (bs : List (List Nat))
    (h : ∀ b ∈ bs, b.length = 16) :
    (fromBlocks bs).length = 16 * bs.length := by
  induction bs with
  | nil => simp [fromBlocks]
  | cons b rest ih =>
    simp only [fromBlocks, List.length_append, List.length_cons]
    rw [h b (by simp), ih (fun c hc => h c (by simp [hc]))]
    ring

/-! ## CBC mode -/

theorem cbcEncryptBlocks_spec (enc : List Nat → List Nat → List Nat)
    (key : List Nat)
    (hLen : ∀ k b, b.length = 16 → (enc k b).length = 16)
    (hByte : ∀ k b, b.length = 16 → (∀ x ∈ b, x < 256) →
      ∀ x ∈ enc k b, x < 256) :
    ∀ bs prev, prev.length = 16 → (∀ x ∈ prev, x < 256) →
    (∀ b ∈ bs, b.length = 16 ∧ ∀ x ∈ b, x < 256) →
    ∀ c ∈ cbcEncryptBlocks enc key prev bs, c.length = 16 ∧ ∀ x ∈ c, x < 256 := by
  intro bs
  induction bs with
  | nil => intro prev _ _ _ c hc; simp [cbcEncryptBlocks] at hc
  | cons b rest ih =>
    intro prev hp hpB hbs c hc
    simp only [cbcEncryptBlocks, List.mem_cons] at hc
    have hxlen : (zipXor prev b).length = 16 := by
      rw [zipXor_length, hp, (hbs b (by simp)).1]
      simp
    have hxB : ∀ x ∈ zipXor prev b, x < 256 :=
      zipXor_lt_256 prev b hpB (hbs b (by simp)).2
    have hcLen : (enc key (zipXor prev b)).length = 16 := hLen key _ hxlen
    have hcB : ∀ x ∈ enc key (zipXor prev b), x < 256 := hByte key _ hxlen hxB
    rcases hc with hc | hc
    · subst hc; exact ⟨hcLen, hcB⟩
    · exact ih (enc key (zipXor prev b)) hcLen hcB
        (fun b2 hb2 => hbs b2 (by simp [hb2])) c hc

theorem cbcEncryptBlocks_count (enc : List Nat → List Nat → List Nat)
    (key : List Nat) :
    ∀ bs prev, (cbcEncryptBlocks enc key prev bs).length = bs.length := by
  intro bs
  induction bs with
  | nil => intro prev; rfl
  | cons b rest ih =>
    intro prev
    simp only [cbcEncryptBlocks, List.length_cons]
    rw [ih]

theorem cbcDecryptBlocks_cbcEncryptBlocks
    (enc dec : List Nat → List Nat → List Nat) (key : List Nat)
    (hLen : ∀ k b, b.length = 16 → (enc k b).length = 16)
    (hInv : ∀ k b, b.length = 16 → dec k (enc k b) = b) :
    ∀ bs prev, prev.length = 16 → (∀ b ∈ bs, b.length = 16) →
    cbcDecryptBlocks dec key prev (cbcEncryptBlocks enc key prev bs) = bs := by
  intro bs
  induction bs with
  | nil => intro prev _ _; rfl
  | cons b rest ih =>
    intro prev hp hbs
    simp only [cbcEncryptBlocks, cbcDecryptBlocks]
    have hxlen : (zipXor prev b).length = 16 := by
      rw [zipXor_length, hp, hbs b (by simp)]
      simp
    rw [hInv key _ hxlen]
    rw [zipXor_cancel prev b (by rw [hp, hbs b (by simp)])]
    exact congrArg _
      (ih _ (hLen key _ hxlen) (fun b2 hb2 => hbs b2 (by simp [hb2])))

/-! ## PKCS#7 padding and Python slicing -/

theorem pkcs7pad_length_mod (l : List Nat) : (pkcs7pad l).length % 16 = 0 := by
  simp only [pkcs7pad, List.length_append, List.length_replicate]
  omega

theorem pkcs7pad_getLast (l : List Nat) :
    (pkcs7pad l).getLast? = some (16 - l.length % 16) := by
  simp only [pkcs7pad, List.getLast?_append, List.getLast?_replicate]
  have h : ¬ (16 - l.length % 16 = 0) := by omega
  rw [if_neg h]
  rfl

theorem pkcs7pad_lt_256 (l : List Nat) (h : ∀ x ∈ l, x < 256) :
    ∀ x ∈ pkcs7pad l, x < 256 := by
  intro x hx
  simp only [pkcs7pad, List.mem_append, List.mem_replicate] at hx
  rcases hx with hx | hx
  · exact h x hx
  · omega

theorem pySliceNeg_pkcs7pad (l : List Nat) :
    pySliceNeg (pkcs7pad l) (16 - l.length % 16) = l := by
  have hp : ¬ (16 - l.length % 16 = 0) := by omega
  simp only [pySliceNeg, if_neg hp, pkcs7pad, List.length_append,
    List.length_replicate]
  have h : l.length + (16 - l.length % 16) - (16 - l.length % 16) = l.length := by
    omega
  rw [h, List.take_left]

/-! ## PBKDF2 output length -/

theorem pbkdf2Fgo_length (prf : List Nat → List Nat → List Nat)
    (pw : List Nat) (h : ∀ m, (prf pw m).length = 32) :
    ∀ n u acc, acc.length = 32 → (pbkdf2Fgo prf pw n u acc).length = 32 := by
  intro n
  induction n with
  | zero => intro u acc hacc; exact hacc
  | succ n ih =>
    intro u acc hacc
    simp only [pbkdf2Fgo]
    exact ih _ _ (by rw [zipXor_length, hacc, h]; simp)

theorem pbkdf2F_length (prf : List Nat → List Nat → List Nat)
    (pw salt : List Nat) (h : ∀ m, (prf pw m).length = 32) (count i : Nat) :
    (pbkdf2F prf pw salt count i).length = 32 := by
  simp only [pbkdf2F]
  exact pbkdf2Fgo_length prf pw h _ _ _ (h _)

theorem pbkdf2_length_32 (prf : List Nat → List Nat → List Nat)
    (pw salt : List Nat) (h : ∀ m, (prf pw m).length = 32) (count : Nat) :
    (pbkdf2 prf pw salt 32 count).length = 32 := by
  simp only [pbkdf2]
  rw [List.length_take]
  have h1 : List.range ((32 + 31) / 32) = [0] := rfl
  rw [h1]
  simp only [List.map_cons, List.map_nil, List.flatten_cons, List.flatten_nil,
    List.append_nil]
  rw [pbkdf2F_length prf pw salt h]
  simp

/-! ## Container slicing -/

theorem containerSalt_append (salt iv ct : List Nat) (h : salt.length = 32) :
    containerSalt (salt ++ iv ++ ct) = salt := by
  simp only [containerSalt, SALT_LENGTH, List.append_assoc]
  exact List.take_left' h

theorem containerIV_append (salt iv ct : List Nat)
    (hs : salt.length = 32) (hi : iv.length = 16) :
    containerIV (salt ++ iv ++ ct) = iv := by
  simp only [containerIV, SALT_LENGTH, IV_LENGTH, List.append_assoc]
  rw [List.drop_left' hs]
  exact List.take_left' hi

theorem containerCT_append (salt iv ct : List Nat)
    (hs : salt.length = 32) (hi : iv.length = 16) :
    containerCT (salt ++ iv ++ ct) = ct := by
  simp only [containerCT, SALT_LENGTH, IV_LENGTH, List.append_assoc]
  have h : (salt ++ (iv ++ ct)) = (salt ++ iv) ++ ct := by simp
  rw [h]
  exact List.drop_left' (by simp [hs, hi])

theorem container_recombine (combined : List Nat) :
    containerSalt combined ++ containerIV combined ++ containerCT combined
      = combined := by
  simp only [containerSalt, containerIV, containerCT, SALT_LENGTH, IV_LENGTH,
    List.append_assoc]
  have h48 : combined.drop (32 + 16) = (combined.drop 32).drop 16 := by
    rw [List.drop_drop]
  rw [h48, List.take_append_drop, List.take_append_drop]

theorem containerCT_length (combined : List Nat) :
    (containerCT combined).length = combined.length - 48 := by
  simp [containerCT, SALT_LENGTH, IV_LENGTH]

/-! ## Base64 round trip -/

theorem b64decChar_b64encChar : ∀ v : Nat, v < 64 →
    b64decChar (b64encChar v) = some v := by decide

theorem b64encChar_ne61 : ∀ v : Nat, v < 64 → b64encChar v ≠ 61 := by decide

theorem b64decode_b64encode : ∀ l : List Nat, (∀ x ∈ l, x < 256) →
    b64decode (b64encode l) = some l
  | [], _ => rfl
  | [a], h => by
    have ha : a < 256 := h a (by simp)
    have d1 := b64decChar_b64encChar (a / 4) (by omega)
    have d2 := b64decChar_b64encChar (a % 4 * 16) (by omega)
    simp [b64encode, b64decode, d1, d2]
    all_goals omega
  | [a, b], h => by
    have ha : a < 256 := h a (by simp)
    have hb : b < 256 := h b (by simp)
    have d1 := b64decChar_b64encChar (a / 4) (by omega)
    have d2 := b64decChar_b64encChar (a % 4 * 16 + b / 16) (by omega)
    have d3 := b64decChar_b64encChar (b % 16 * 4) (by omega)
    have n3 := b64encChar_ne61 (b % 16 * 4) (by omega)
    simp [b64encode, b64decode, d1, d2, d3, n3]
    all_goals omega
  | a :: b :: c :: t, h => by
    have ha : a < 256 := h a (by simp)
    have hb : b < 256 := h b (by simp)
    have hc : c < 256 := h c (by simp)
    have ih := b64decode_b64encode t (fun x hx => h x (by simp [hx]))
    have d1 := b64decChar_b64encChar (a / 4) (by omega)
    have d2 := b64decChar_b64encChar (a % 4 * 16 + b / 16) (by omega)
    have d3 := b64decChar_b64encChar (b % 16 * 4 + c / 64) (by omega)
    have d4 := b64decChar_b64encChar (c % 64) (by omega)
    have n3 := b64encChar_ne61 (b % 16 * 4 + c / 64) (by omega)
    have n4 := b64encChar_ne61 (c % 64) (by omega)
    simp [b64encode, b64decode, d1, d2, d3, d4, n3, n4, ih]
    all_goals omega

/-! ## UTF-8 round trip -/

theorem utf8EncodeChar_lt_256 (c : Nat) (h : c < 1114112) :
    ∀ x ∈ utf8EncodeChar c, x < 256 := by
  intro x hx
  simp only [utf8EncodeChar] at hx
  split_ifs at hx with h1 h2 h3
  · simp only [List.mem_cons, List.not_mem_nil, or_false] at hx
    omega
  · simp only [List.mem_cons, List.not_mem_nil, or_false] at hx
    rcases hx with rfl | rfl <;> omega
  · simp only [List.mem_cons, List.not_mem_nil, or_false] at hx
    rcases hx with rfl | rfl | rfl <;> omega
  · simp only [List.mem_cons, List.not_mem_nil, or_false] at hx
    rcases hx with rfl | rfl | rfl | rfl <;> omega

theorem utf8Encode_lt_256 (s : List Nat) (h : ∀ c ∈ s, c < 1114112) :
    ∀ x ∈ utf8Encode s, x < 256 := by
  induction s with
  | nil => simp [utf8Encode]
  | cons c cs ih =>
    have hsplit : utf8Encode (c :: cs) = utf8EncodeChar c ++ utf8Encode cs := by
      simp [utf8Encode]
    rw [hsplit]
    intro x hx
    rw [List.mem_append] at hx
    rcases hx with hx | hx
    · exact utf8EncodeChar_lt_256 c (h c (by simp)) x hx
    · exact ih (fun d hd => h d (by simp [hd])) x hx


theorem utf8Go_one (b0 : Nat) (t : List Nat) (h : b0 < 128) :
    utf8Go 0 0 0 (b0 :: t) = (utf8Go 0 0 0 t).map (fun s => b0 :: s) := by
  simp only [utf8Go]
  rw [if_pos h]

theorem utf8Go_start_two (b0 : Nat) (t : List Nat)
    (h1 : 194 ≤ b0) (h2 : b0 < 224) :
    utf8Go 0 0 0 (b0 :: t) = utf8Go (b0 - 192) 1 128 t := by
  simp only [utf8Go]
  rw [if_neg (by omega), if_neg (by omega), if_pos h2]

theorem utf8Go_start_three (b0 : Nat) (t : List Nat)
    (h1 : 224 ≤ b0) (h2 : b0 < 240) :
    utf8Go 0 0 0 (b0 :: t) = utf8Go (b0 - 224) 2 2048 t := by
  simp only [utf8Go]
  rw [if_neg (by omega), if_neg (by omega), if_neg (by omega), if_pos h2]

theorem utf8Go_start_four (b0 : Nat) (t : List Nat)
    (h1 : 240 ≤ b0) (h2 : b0 < 245) :
    utf8Go 0 0 0 (b0 :: t) = utf8Go (b0 - 240) 3 65536 t := by
  simp only [utf8Go]
  rw [if_neg (by omega), if_neg (by omega), if_neg (by omega),
    if_neg (by omega), if_pos h2]

theorem utf8Go_cont (acc k lo b : Nat) (t : List Nat)
    (hb1 : 128 ≤ b) (hb2 : b < 192) :
    utf8Go acc (k + 2) lo (b :: t)
      = utf8Go (acc * 64 + (b - 128)) (k + 1) lo t := by
  simp only [utf8Go]
  rw [if_pos ⟨hb1, hb2⟩]

theorem utf8Go_last (acc lo b : Nat) (t : List Nat)
    (hb1 : 128 ≤ b) (hb2 : b < 192)
    (hok : lo ≤ acc * 64 + (b - 128) ∧ acc * 64 + (b - 128) < 1114112 ∧
      ¬ (55296 ≤ acc * 64 + (b - 128) ∧ acc * 64 + (b - 128) ≤ 57343)) :
    utf8Go acc 1 lo (b :: t)
      = (utf8Go 0 0 0 t).map (fun s => (acc * 64 + (b - 128)) :: s) := by
  simp only [utf8Go]
  rw [if_pos ⟨hb1, hb2⟩, if_pos hok]

theorem utf8Decode_encodeChar (c : Nat) (hv : ValidScalar c) (rest : List Nat) :
    utf8Go 0 0 0 (utf8EncodeChar c ++ rest)
      = (utf8Go 0 0 0 rest).map (fun s => c :: s) := by
  obtain ⟨hlt, hsur⟩ := hv
  by_cases h1 : c < 128
  · simp only [utf8EncodeChar, if_pos h1, List.cons_append, List.nil_append]
    exact utf8Go_one c rest h1
  · by_cases h2 : c < 2048
    · simp only [utf8EncodeChar, if_neg h1, if_pos h2, List.cons_append,
        List.nil_append]
      have e : (192 + c / 64 - 192) * 64 + (128 + c % 64 - 128) = c := by omega
      rw [utf8Go_start_two _ _ (by omega) (by omega),
        utf8Go_last _ _ _ _ (by omega) (by omega)
          ⟨by omega, by omega, by omega⟩, e]
    · by_cases h3 : c < 65536
      · simp only [utf8EncodeChar, if_neg h1, if_neg h2, if_pos h3,
          List.cons_append, List.nil_append]
        have e : ((224 + c / 4096 - 224) * 64 + (128 + c / 64 % 64 - 128)) * 64
            + (128 + c % 64 - 128) = c := by omega
        rw [utf8Go_start_three _ _ (by omega) (by omega),
          utf8Go_cont _ _ _ _ _ (by omega) (by omega),
          utf8Go_last _ _ _ _ (by omega) (by omega)
            ⟨by omega, by omega, e.symm ▸ hsur⟩, e]
      · simp only [utf8EncodeChar, if_neg h1, if_neg h2, if_neg h3,
          List.cons_append, List.nil_append]
        have e : (((240 + c / 262144 - 240) * 64 + (128 + c / 4096 % 64 - 128))
              * 64 + (128 + c / 64 % 64 - 128)) * 64 + (128 + c % 64 - 128)
            = c := by omega
        rw [utf8Go_start_four _ _ (by omega) (by omega),
          utf8Go_cont _ _ _ _ _ (by omega) (by omega),
          utf8Go_cont _ _ _ _ _ (by omega) (by omega),
          utf8Go_last _ _ _ _ (by omega) (by omega)
            ⟨by omega, by omega, e.symm ▸ hsur⟩, e]

theorem utf8Decode_utf8Encode (s : List Nat) (h : ∀ c ∈ s, ValidScalar c) :
    utf8Decode (utf8Encode s) = some s := by
  induction s with
  | nil => rfl
  | cons c cs ih =>
    have hsplit : utf8Encode (c :: cs) = utf8EncodeChar c ++ utf8Encode cs := by
      simp [utf8Encode]
    show utf8Go 0 0 0 (utf8Encode (c :: cs)) = some (c :: cs)
    rw [hsplit, utf8Decode_encodeChar c (h c (by simp))]
    have ihg : utf8Go 0 0 0 (utf8Encode cs) = some cs :=
      ih (fun d hd => h d (by simp [hd]))
    rw [ihg]
    rfl


/-! ## Unfolding the decryption pipeline -/

theorem decrypt_badBase64 (prims : Prims) (payload pw : List Nat)
    (h : b64decode payload = none) :
    decrypt prims payload pw = .error .badBase64 := by
  unfold decrypt
  rw [h]

theorem decrypt_tooShort (prims : Prims) (payload pw combined : List Nat)
    (hb : b64decode payload = some combined) (h : combined.length < 48) :
    decrypt prims payload pw = .error .tooShort := by
  unfold decrypt
  rw [hb]
  simp only [SALT_LENGTH, IV_LENGTH]
  rw [if_pos (by omega)]

theorem decrypt_unfold (prims : Prims) (payload pw combined : List Nat)
    (hb : b64decode payload = some combined) (hlen : 48 ≤ combined.length) :
    decrypt prims payload pw =
      match aes_cbc_decrypt prims.aesDec
          (derive_key prims pw (containerSalt combined))
          (containerIV combined) (containerCT combined) with
      | none => .error .badBlockLength
      | some d =>
        match d.getLast? with
        | none => .error .emptyIndex
        | some p =>
          match utf8Decode (pySliceNeg d p) with
          | none => .error .utf8Failure
          | some s => .ok s := by
  unfold decrypt
  rw [hb]
  simp only [SALT_LENGTH, IV_LENGTH]
  rw [if_neg (by omega)]

theorem decrypt_cbc_none (prims : Prims) (payload pw combined : List Nat)
    (hb : b64decode payload = some combined) (hlen : 48 ≤ combined.length)
    (hA : aes_cbc_decrypt prims.aesDec
      (derive_key prims pw (containerSalt combined))
      (containerIV combined) (containerCT combined) = none) :
    decrypt prims payload pw = .error .badBlockLength := by
  rw [decrypt_unfold prims payload pw combined hb hlen, hA]

theorem decrypt_step (prims : Prims) (payload pw combined d : List Nat)
    (hb : b64decode payload = some combined) (hlen : 48 ≤ combined.length)
    (hA : aes_cbc_decrypt prims.aesDec
      (derive_key prims pw (containerSalt combined))
      (containerIV combined) (containerCT combined) = some d) :
    decrypt prims payload pw =
      match d.getLast? with
      | none => .error .emptyIndex
      | some p =>
        match utf8Decode (pySliceNeg d p) with
        | none => .error .utf8Failure
        | some s => .ok s := by
  rw [decrypt_unfold prims payload pw combined hb hlen, hA]

theorem decrypt_step2 (prims : Prims) (payload pw combined d : List Nat)
    (p : Nat)
    (hb : b64decode payload = some combined) (hlen : 48 ≤ combined.length)
    (hA : aes_cbc_decrypt prims.aesDec
      (derive_key prims pw (containerSalt combined))
      (containerIV combined) (containerCT combined) = some d)
    (hL : d.getLast? = some p) :
    decrypt prims payload pw =
      match utf8Decode (pySliceNeg d p) with
      | none => .error .utf8Failure
      | some s => .ok s := by
  rw [decrypt_step prims payload pw combined d hb hlen hA, hL]

theorem decrypt_result_shape (prims : Prims) (payload pw combined : List Nat)
    (hb : b64decode payload = some combined) (hlen : 48 ≤ combined.length) :
    decrypt prims payload pw = .error .badBlockLength ∨
    decrypt prims payload pw = .error .emptyIndex ∨
    decrypt prims payload pw = .error .utf8Failure ∨
    ∃ s, decrypt prims payload pw = .ok s := by
  rcases hA : aes_cbc_decrypt prims.aesDec
      (derive_key prims pw (containerSalt combined))
      (containerIV combined) (containerCT combined) with _ | d
  · exact Or.inl (decrypt_cbc_none prims payload pw combined hb hlen hA)
  · rcases hL : d.getLast? with _ | p
    · refine Or.inr (Or.inl ?_)
      rw [decrypt_step prims payload pw combined d hb hlen hA, hL]
    · rcases hU : utf8Decode (pySliceNeg d p) with _ | s
      · refine Or.inr (Or.inr (Or.inl ?_))
        rw [decrypt_step2 prims payload pw combined d p hb hlen hA hL, hU]
      · refine Or.inr (Or.inr (Or.inr ⟨s, ?_⟩))
        rw [decrypt_step2 prims payload pw combined d p hb hlen hA hL, hU]


/-! ## Claim theorems -/

/-- C2: `derive_key` equals the reference PBKDF2 over an HMAC-SHA256 PRF,
applied to the UTF-8 encoding of the passphrase and the given salt with
100,000 iterations and a 32-byte derived key; under the PRF's 32-byte
output property the derived key indeed has 32 bytes, and two calls with
identical inputs yield byte-identical output. -/
theorem derive_key_spec (prims : Prims) (pw salt : List Nat)
    (hlen : ∀ m, (prims.hmac (utf8Encode pw) m).length = 32) :
    derive_key prims pw salt
        = pbkdf2 prims.hmac (utf8Encode pw) salt 32 100000
      ∧ (derive_key prims pw salt).length = 32
      ∧ ∀ pw2 salt2, pw2 = pw → salt2 = salt →
          derive_key prims pw2 salt2 = derive_key prims pw salt := by
  refine ⟨rfl, ?_, ?_⟩
  · show (pbkdf2 prims.hmac (utf8Encode pw) salt 32 100000).length = 32
    exact pbkdf2_length_32 prims.hmac (utf8Encode pw) salt hlen 100000
  · intro pw2 salt2 h1 h2
    rw [h1, h2]

theorem derive_key_spec_witness :
    derive_key idPrims [97] [5]
        = pbkdf2 idPrims.hmac (utf8Encode [97]) [5] 32 100000
      ∧ (derive_key idPrims [97] [5]).length = 32
      ∧ ∀ pw2 salt2, pw2 = [97] → salt2 = [5] →
          derive_key idPrims pw2 salt2 = derive_key idPrims [97] [5] :=
  derive_key_spec idPrims [97] [5] (fun m => by simp [idPrims])

/-- C5: for any payload whose Base64 decoding has at least 48 bytes, the
decoder slices salt = bytes [0:32], IV = bytes [32:48] and ciphertext =
bytes [48:]; the three regions are contiguous, non-overlapping and
concatenate back to the decoded payload. -/
theorem container_decode_spec (payload combined : List Nat)
    (hb : b64decode payload = some combined) (hlen : 48 ≤ combined.length) :
    containerSalt combined ++ containerIV combined ++ containerCT combined
        = combined
      ∧ (containerSalt combined).length = 32
      ∧ (containerIV combined).length = 16
      ∧ (containerCT combined).length = combined.length - 48 := by
  refine ⟨container_recombine combined, ?_, ?_, containerCT_length combined⟩
  · simp only [containerSalt, SALT_LENGTH, List.length_take]
    omega
  · simp only [containerIV, SALT_LENGTH, IV_LENGTH, List.length_take,
      List.length_drop]
    omega

theorem container_decode_spec_witness :
    containerSalt (List.replicate 48 5) ++ containerIV (List.replicate 48 5)
        ++ containerCT (List.replicate 48 5) = List.replicate 48 5
      ∧ (containerSalt (List.replicate 48 5)).length = 32
      ∧ (containerIV (List.replicate 48 5)).length = 16
      ∧ (containerCT (List.replicate 48 5)).length
          = (List.replicate 48 5).length - 48 :=
  container_decode_spec (b64encode (List.replicate 48 5))
    (List.replicate 48 5) (by decide) (by decide)

/-- C6: a payload that fails Base64 decoding, or decodes to fewer than 48
bytes, makes `decrypt` fail with the corresponding `MalformedContainer`
error (`badBase64` resp. `tooShort`) without key derivation ever being
attempted (the result does not depend on the cryptographic primitives);
a payload decoding to at least 48 bytes never produces either error. -/
theorem malformed_container_spec (prims prims2 : Prims)
    (payload pw combined : List Nat) :
    (b64decode payload = none → decrypt prims payload pw = .error .badBase64)
    ∧ (b64decode payload = some combined → combined.length < 48 →
        decrypt prims payload pw = .error .tooShort)
    ∧ ((b64decode payload = none ∨
        (b64decode payload = some combined ∧ combined.length < 48)) →
        decrypt prims payload pw = decrypt prims2 payload pw)
    ∧ (b64decode payload = some combined → 48 ≤ combined.length →
        decrypt prims payload pw ≠ .error .badBase64 ∧
        decrypt prims payload pw ≠ .error .tooShort) := by
  refine ⟨fun h => decrypt_badBase64 prims payload pw h,
    fun hb h => decrypt_tooShort prims payload pw combined hb h, ?_, ?_⟩
  · rintro (h | ⟨hb, h⟩)
    · rw [decrypt_badBase64 prims payload pw h,
        decrypt_badBase64 prims2 payload pw h]
    · rw [decrypt_tooShort prims payload pw combined hb h,
        decrypt_tooShort prims2 payload pw combined hb h]
  · intro hb hlen
    rcases decrypt_result_shape prims payload pw combined hb hlen with
      h | h | h | ⟨s, h⟩ <;> rw [h] <;> exact ⟨by simp, by simp⟩

theorem malformed_container_spec_witness :
    decrypt idPrims (b64encode (List.replicate 10 7)) [97] = .error .tooShort
    ∧ decrypt idPrims (b64encode (List.replicate 10 7)) [97]
        = decrypt ⟨fun _ _ => [], fun _ _ => [], fun _ _ => []⟩
            (b64encode (List.replicate 10 7)) [97] := by
  have h := malformed_container_spec idPrims
    ⟨fun _ _ => [], fun _ _ => [], fun _ _ => []⟩
    (b64encode (List.replicate 10 7)) [97] (List.replicate 10 7)
  exact ⟨h.2.1 (by decide) (by decide),
    h.2.2.1 (Or.inr ⟨by decide, by decide⟩)⟩

/-- C8: whenever the ciphertext region of the container (the decoded
bytes beyond the first 48) has a length that is not a multiple of 16,
`decrypt` fails with the `InvalidCiphertextLength` error
(`badBlockLength`, the CBC-mode `ValueError`). -/
theorem decrypt_block_misalignment (prims : Prims)
    (payload pw combined : List Nat)
    (hb : b64decode payload = some combined) (hlen : 48 ≤ combined.length)
    (hmod : (combined.length - 48) % 16 ≠ 0) :
    decrypt prims payload pw = .error .badBlockLength := by
  apply decrypt_cbc_none prims payload pw combined hb hlen
  have hct : (containerCT combined).length % 16 ≠ 0 := by
    rw [containerCT_length]
    exact hmod
  unfold aes_cbc_decrypt
  rw [if_neg hct]

theorem decrypt_block_misalignment_witness :
    decrypt idPrims (b64encode (List.replicate 50 7)) [97]
      = .error .badBlockLength :=
  decrypt_block_misalignment idPrims (b64encode (List.replicate 50 7)) [97]
    (List.replicate 50 7) (by decide) (by decide) (by decide)


/-- Concrete container used by the padding-policy witnesses: salt of 32
one-bytes, IV of 16 two-bytes, and one ciphertext block chosen so that
identity-cipher CBC decryption yields exactly `final`. -/
def witContainer (final : List Nat) : List Nat :=
  List.replicate 32 1 ++ List.replicate 16 2
    ++ zipXor (List.replicate 16 2) final

/-- C3: when the AES-decrypted buffer ends in `p` with `1 ≤ p ≤ length`,
`decrypt` truncates exactly the last `p` bytes and UTF-8-decodes the
remainder — the result depends only on the first `length - p` bytes, so
no PKCS#7 content validation occurs and any last-byte value is accepted
as the truncation count. -/
theorem decrypt_padding_truncation (prims : Prims)
    (payload pw combined d : List Nat) (p : Nat)
    (hb : b64decode payload = some combined) (hlen : 48 ≤ combined.length)
    (hA : aes_cbc_decrypt prims.aesDec
      (derive_key prims pw (containerSalt combined))
      (containerIV combined) (containerCT combined) = some d)
    (hL : d.getLast? = some p) (hp1 : 1 ≤ p) (hp2 : p ≤ d.length) :
    decrypt prims payload pw =
      match utf8Decode (d.take (d.length - p)) with
      | none => .error .utf8Failure
      | some s => .ok s := by
  rw [decrypt_step2 prims payload pw combined d p hb hlen hA hL]
  have hs : pySliceNeg d p = d.take (d.length - p) := by
    simp only [pySliceNeg, if_neg (by omega : ¬ p = 0)]
  rw [hs]

theorem decrypt_padding_truncation_witness :
    decrypt idPrims (b64encode (witContainer (List.replicate 15 65 ++ [3])))
        [97]
      = match utf8Decode ((List.replicate 15 65 ++ [3]).take
          ((List.replicate 15 65 ++ [3]).length - 3)) with
        | none => .error .utf8Failure
        | some s => .ok s :=
  decrypt_padding_truncation idPrims
    (b64encode (witContainer (List.replicate 15 65 ++ [3]))) [97]
    (witContainer (List.replicate 15 65 ++ [3]))
    (List.replicate 15 65 ++ [3]) 3
    (by decide) (by decide) (by decide) (by decide) (by decide) (by decide)

/-- C4 (amended): when the last byte `p` of the decrypted buffer exceeds
the buffer length, `decrypt` does not signal any error: the Python slice
`[:-p]` clamps to the empty byte string, which UTF-8-decodes to the
empty string, so `decrypt` returns ok "". -/
theorem decrypt_padding_out_of_range (prims : Prims)
    (payload pw combined d : List Nat) (p : Nat)
    (hb : b64decode payload = some combined) (hlen : 48 ≤ combined.length)
    (hA : aes_cbc_decrypt prims.aesDec
      (derive_key prims pw (containerSalt combined))
      (containerIV combined) (containerCT combined) = some d)
    (hL : d.getLast? = some p) (hp : d.length < p) :
    decrypt prims payload pw = .ok [] := by
  rw [decrypt_step2 prims payload pw combined d p hb hlen hA hL]
  have hs : pySliceNeg d p = [] := by
    simp only [pySliceNeg, if_neg (by omega : ¬ p = 0)]
    have h0 : d.length - p = 0 := by omega
    rw [h0, List.take_zero]
  rw [hs]
  rfl

theorem decrypt_padding_out_of_range_witness :
    decrypt idPrims (b64encode (witContainer (List.replicate 15 65 ++ [200])))
      [97] = .ok [] :=
  decrypt_padding_out_of_range idPrims
    (b64encode (witContainer (List.replicate 15 65 ++ [200]))) [97]
    (witContainer (List.replicate 15 65 ++ [200]))
    (List.replicate 15 65 ++ [200]) 200
    (by decide) (by decide) (by decide) (by decide) (by decide)

/-- C4 counterexample: a container whose decrypted buffer ends in 200,
larger than the 16-byte buffer, on which `decrypt` returns the empty
string instead of signalling `PaddingTruncationOutOfRange` (no such
error exists in the code: the slice clamps). -/
theorem decrypt_padding_out_of_range_cex :
    aes_cbc_decrypt idPrims.aesDec
        (derive_key idPrims [97]
          (containerSalt (witContainer (List.replicate 15 65 ++ [200]))))
        (containerIV (witContainer (List.replicate 15 65 ++ [200])))
        (containerCT (witContainer (List.replicate 15 65 ++ [200])))
      = some (List.replicate 15 65 ++ [200])
    ∧ (List.replicate 15 65 ++ [200]).getLast? = some 200
    ∧ (List.replicate 15 65 ++ [200]).length < 200
    ∧ ∀ e : DecErr,
        decrypt idPrims (b64encode (witContainer (List.replicate 15 65 ++ [200])))
          [97] ≠ .error e := by
  refine ⟨by decide, by decide, by decide, ?_⟩
  intro e
  have h : decrypt idPrims
      (b64encode (witContainer (List.replicate 15 65 ++ [200]))) [97]
      = .ok [] := by decide
  rw [h]
  simp

/-- C7 (amended): a container of exactly 48 decoded bytes decodes without
`MalformedContainer`, but the zero-length ciphertext CBC-decrypts to the
empty buffer and reading its last byte fails with an `IndexError`
(`emptyIndex`) — neither `InvalidCiphertextLength` nor empty plaintext. -/
theorem decrypt_boundary_48 (prims : Prims) (payload pw combined : List Nat)
    (hb : b64decode payload = some combined) (hlen : combined.length = 48) :
    decrypt prims payload pw = .error .emptyIndex := by
  have hct : containerCT combined = [] := by
    have h48 : SALT_LENGTH + IV_LENGTH = combined.length := by
      rw [hlen]
      rfl
    rw [containerCT, h48, List.drop_length]
  have hA : aes_cbc_decrypt prims.aesDec
      (derive_key prims pw (containerSalt combined))
      (containerIV combined) (containerCT combined) = some [] := by
    rw [hct]
    rfl
  rw [decrypt_step prims payload pw combined [] hb (by omega) hA]
  rfl

theorem decrypt_boundary_48_witness :
    decrypt idPrims (b64encode (List.replicate 32 1 ++ List.replicate 16 2))
      [97] = .error .emptyIndex :=
  decrypt_boundary_48 idPrims
    (b64encode (List.replicate 32 1 ++ List.replicate 16 2)) [97]
    (List.replicate 32 1 ++ List.replicate 16 2) (by decide) (by decide)

/-- C7 counterexample: on the concrete 48-byte container the script
neither fails with `InvalidCiphertextLength` nor produces empty
plaintext — it raises the index error reading the last byte of the
empty decrypted buffer. -/
theorem decrypt_boundary_48_cex :
    decrypt idPrims (b64encode (List.replicate 32 1 ++ List.replicate 16 2))
        [97] = .error .emptyIndex
      ∧ decrypt idPrims (b64encode (List.replicate 32 1 ++ List.replicate 16 2))
        [97] ≠ .error .badBlockLength
      ∧ decrypt idPrims (b64encode (List.replicate 32 1 ++ List.replicate 16 2))
        [97] ≠ .ok [] := by
  refine ⟨by decide, by decide, by decide⟩

/-- C10: when the AES-decrypted buffer is non-empty and its last byte is
0, the Python slice `[:-0]` is `[:0]` and discards the whole buffer, so
`decrypt` returns the empty string. -/
theorem decrypt_zero_padding (prims : Prims)
    (payload pw combined d : List Nat)
    (hb : b64decode payload = some combined) (hlen : 48 ≤ combined.length)
    (hA : aes_cbc_decrypt prims.aesDec
      (derive_key prims pw (containerSalt combined))
      (containerIV combined) (containerCT combined) = some d)
    (hne : d ≠ []) (hL : d.getLast? = some 0) :
    decrypt prims payload pw = .ok [] := by
  rw [decrypt_step2 prims payload pw combined d 0 hb hlen hA hL]
  have hs : pySliceNeg d 0 = [] := by
    simp [pySliceNeg]
  rw [hs]
  rfl

theorem decrypt_zero_padding_witness :
    decrypt idPrims (b64encode (witContainer (List.replicate 15 65 ++ [0])))
      [97] = .ok [] :=
  decrypt_zero_padding idPrims
    (b64encode (witContainer (List.replicate 15 65 ++ [0]))) [97]
    (witContainer (List.replicate 15 65 ++ [0]))
    (List.replicate 15 65 ++ [0])
    (by decide) (by decide) (by decide) (by decide) (by decide)


/-! ## C1: round trip against the reference encryption -/

theorem fromBlocks_mem (bs : List (List Nat)) :
    ∀ x ∈ fromBlocks bs, ∃ b ∈ bs, x ∈ b := by
  induction bs with
  | nil => simp [fromBlocks]
  | cons b rest ih =>
    intro x hx
    simp only [fromBlocks, List.mem_append] at hx
    rcases hx with hx | hx
    · exact ⟨b, by simp, hx⟩
    · obtain ⟨c, hc, hxc⟩ := ih x hx
      exact ⟨c, by simp [hc], hxc⟩

/-- C1: for every plaintext of Unicode scalars, every passphrase, every
32-byte salt and 16-byte IV, decrypting the Base64 encoding of
`salt ‖ iv ‖ ciphertext` produced by the matching reference encryption
(PBKDF2-derived key, AES-256-CBC over the abstract block cipher, PKCS#7
padding) under the same passphrase returns exactly the plaintext.  The
block cipher is assumed length-preserving, byte-valued and inverted by
its decryption direction. -/
theorem decrypt_encryptRef_roundtrip (prims : Prims) (P W salt iv : List Nat)
    (hP : ∀ c ∈ P, ValidScalar c)
    (hsalt : salt.length = 32) (hiv : iv.length = 16)
    (hsaltB : ∀ x ∈ salt, x < 256) (hivB : ∀ x ∈ iv, x < 256)
    (hencLen : ∀ k b, b.length = 16 → (prims.aesEnc k b).length = 16)
    (hencByte : ∀ k b, b.length = 16 → (∀ x ∈ b, x < 256) →
      ∀ x ∈ prims.aesEnc k b, x < 256)
    (hinv : ∀ k b, b.length = 16 → prims.aesDec k (prims.aesEnc k b) = b) :
    decrypt prims (encryptRef prims P W salt iv) W = .ok P := by
  have hpadB : ∀ x ∈ pkcs7pad (utf8Encode P), x < 256 :=
    pkcs7pad_lt_256 _ (utf8Encode_lt_256 P (fun c hc => (hP c hc).1))
  have hpadMod : (pkcs7pad (utf8Encode P)).length % 16 = 0 :=
    pkcs7pad_length_mod _
  have hblocks16 : ∀ b ∈ toBlocks (pkcs7pad (utf8Encode P)), b.length = 16 :=
    toBlocks_length_16 _ hpadMod
  have hctBlocks : ∀ c ∈ cbcEncryptBlocks prims.aesEnc
      (derive_key prims W salt) iv (toBlocks (pkcs7pad (utf8Encode P))),
      c.length = 16 ∧ ∀ x ∈ c, x < 256 :=
    cbcEncryptBlocks_spec prims.aesEnc (derive_key prims W salt) hencLen
      hencByte (toBlocks (pkcs7pad (utf8Encode P))) iv hiv hivB
      (fun b hb => ⟨hblocks16 b hb,
        fun x hx => hpadB x (toBlocks_mem _ b hb x hx)⟩)
  have hctLen16 : ∀ c ∈ cbcEncryptBlocks prims.aesEnc
      (derive_key prims W salt) iv (toBlocks (pkcs7pad (utf8Encode P))),
      c.length = 16 := fun c hc => (hctBlocks c hc).1
  have hctB : ∀ x ∈ aes_cbc_encrypt prims.aesEnc (derive_key prims W salt)
      iv (pkcs7pad (utf8Encode P)), x < 256 := by
    intro x hx
    have hx2 : x ∈ fromBlocks (cbcEncryptBlocks prims.aesEnc
        (derive_key prims W salt) iv (toBlocks (pkcs7pad (utf8Encode P)))) :=
      hx
    obtain ⟨b, hb, hxb⟩ := fromBlocks_mem _ x hx2
    exact (hctBlocks b hb).2 x hxb
  have hcombB : ∀ x ∈ salt ++ iv ++ aes_cbc_encrypt prims.aesEnc
      (derive_key prims W salt) iv (pkcs7pad (utf8Encode P)), x < 256 := by
    intro x hx
    simp only [List.mem_append] at hx
    rcases hx with (hx | hx) | hx
    · exact hsaltB x hx
    · exact hivB x hx
    · exact hctB x hx
  have hb64 : b64decode (b64encode (salt ++ iv ++ aes_cbc_encrypt prims.aesEnc
      (derive_key prims W salt) iv (pkcs7pad (utf8Encode P))))
      = some (salt ++ iv ++ aes_cbc_encrypt prims.aesEnc
        (derive_key prims W salt) iv (pkcs7pad (utf8Encode P))) :=
    b64decode_b64encode _ hcombB
  have hbX : b64decode (encryptRef prims P W salt iv)
      = some (salt ++ iv ++ aes_cbc_encrypt prims.aesEnc
        (derive_key prims W salt) iv (pkcs7pad (utf8Encode P))) := hb64
  have hctLenMod : (fromBlocks (cbcEncryptBlocks prims.aesEnc
      (derive_key prims W salt) iv
      (toBlocks (pkcs7pad (utf8Encode P))))).length % 16 = 0 := by
    rw [fromBlocks_length _ hctLen16]
    omega
  have hcombLen : 48 ≤ (salt ++ iv ++ aes_cbc_encrypt prims.aesEnc
      (derive_key prims W salt) iv (pkcs7pad (utf8Encode P))).length := by
    rw [List.length_append, List.length_append, hsalt, hiv]
    omega
  have hA : aes_cbc_decrypt prims.aesDec
      (derive_key prims W (containerSalt (salt ++ iv ++ aes_cbc_encrypt
        prims.aesEnc (derive_key prims W salt) iv (pkcs7pad (utf8Encode P)))))
      (containerIV (salt ++ iv ++ aes_cbc_encrypt prims.aesEnc
        (derive_key prims W salt) iv (pkcs7pad (utf8Encode P))))
      (containerCT (salt ++ iv ++ aes_cbc_encrypt prims.aesEnc
        (derive_key prims W salt) iv (pkcs7pad (utf8Encode P))))
      = some (pkcs7pad (utf8Encode P)) := by
    rw [containerSalt_append _ _ _ hsalt, containerIV_append _ _ _ hsalt hiv,
      containerCT_append _ _ _ hsalt hiv]
    show aes_cbc_decrypt prims.aesDec (derive_key prims W salt) iv
      (fromBlocks (cbcEncryptBlocks prims.aesEnc (derive_key prims W salt)
        iv (toBlocks (pkcs7pad (utf8Encode P))))) = _
    unfold aes_cbc_decrypt
    rw [if_pos hctLenMod]
    have h1 : toBlocks (fromBlocks (cbcEncryptBlocks prims.aesEnc
        (derive_key prims W salt) iv (toBlocks (pkcs7pad (utf8Encode P)))))
        = cbcEncryptBlocks prims.aesEnc (derive_key prims W salt) iv
          (toBlocks (pkcs7pad (utf8Encode P))) :=
      toBlocks_fromBlocks _ hctLen16
    rw [h1]
    rw [cbcDecryptBlocks_cbcEncryptBlocks prims.aesEnc prims.aesDec
      (derive_key prims W salt) hencLen hinv
      (toBlocks (pkcs7pad (utf8Encode P))) iv hiv hblocks16]
    rw [fromBlocks_toBlocks]
  have hL : (pkcs7pad (utf8Encode P)).getLast?
      = some (16 - (utf8Encode P).length % 16) := pkcs7pad_getLast _
  rw [decrypt_step2 prims (encryptRef prims P W salt iv) W
    (salt ++ iv ++ aes_cbc_encrypt prims.aesEnc (derive_key prims W salt)
      iv (pkcs7pad (utf8Encode P)))
    (pkcs7pad (utf8Encode P)) (16 - (utf8Encode P).length % 16)
    hbX hcombLen hA hL]
  rw [pySliceNeg_pkcs7pad (utf8Encode P)]
  rw [utf8Decode_utf8Encode P hP]

theorem decrypt_encryptRef_roundtrip_witness :
    decrypt idPrims
        (encryptRef idPrims [91, 93]
          [99, 111, 114, 114, 101, 99, 116, 32, 104, 111, 114, 115, 101]
          (List.replicate 32 1) (List.replicate 16 2))
        [99, 111, 114, 114, 101, 99, 116, 32, 104, 111, 114, 115, 101]
      = .ok [91, 93] :=
  decrypt_encryptRef_roundtrip idPrims [91, 93]
    [99, 111, 114, 114, 101, 99, 116, 32, 104, 111, 114, 115, 101]
    (List.replicate 32 1) (List.replicate 16 2)
    (by decide) (by decide) (by decide) (by decide) (by decide)
    (fun _ _ h => h) (fun _ _ _ hB => hB) (fun _ _ _ => rfl)

end SecureVault
